import Mathlib

/-!
Shallow embedding of the Ito card game (src/ito.py) and verification of the
specification's claims against it.  Pure game logic (card distribution, the
order-resolution loop, the reveal sequencer kept in `st.session_state`,
round advancement, restart, and the per-room store updates) is translated
into executable Lean definitions; the entropy source (`random.sample`) is
passed in explicitly, with its contract assumed as hypotheses.
-/

namespace Ito

/-- Python dict assignment `d[k] = v`: overwrite the value at an existing key
in place, otherwise append the new binding at the end. -/
def upsert {κ α : Type} [BEq κ] (k : κ) (v : α) : List (κ × α) → List (κ × α)
  | [] => [(k, v)]
  | (k₀, v₀) :: rest => if k == k₀ then (k, v) :: rest else (k₀, v₀) :: upsert k v rest

theorem lookup_upsert_self {κ α : Type} [BEq κ] [LawfulBEq κ] (k : κ) (v : α) :
    ∀ m : List (κ × α), (upsert k v m).lookup k = some v := by
  intro m
  induction m with
  | nil => simp [upsert, List.lookup]
  | cons hd tl ih =>
    obtain ⟨k₀, v₀⟩ := hd
    by_cases h : k = k₀
    · subst h; simp [upsert, List.lookup]
    · have hb : (k == k₀) = false := beq_false_of_ne h
      simp [upsert, hb, List.lookup, ih]

theorem lookup_upsert_ne {κ α : Type} [BEq κ] [LawfulBEq κ] {k q : κ} (h : q ≠ k) (v : α) :
    ∀ m : List (κ × α), (upsert k v m).lookup q = m.lookup q := by
  intro m
  have hqk : (q == k) = false := beq_false_of_ne h
  induction m with
  | nil => simp [upsert, List.lookup, hqk]
  | cons hd tl ih =>
    obtain ⟨k₀, v₀⟩ := hd
    by_cases h0 : k = k₀
    · subst h0; simp [upsert, List.lookup, hqk]
    · have hb : (k == k₀) = false := beq_false_of_ne h0
      by_cases hq0 : q = k₀
      · subst hq0; simp [upsert, hb, List.lookup]
      · have hqb : (q == k₀) = false := beq_false_of_ne hq0
        simp [upsert, hb, List.lookup, hqb, ih]

/-- Assigning a fresh key appends the binding at the end. -/
theorem upsert_append_of_not_mem {κ α : Type} [BEq κ] [LawfulBEq κ] (k : κ) (v : α) :
    ∀ m : List (κ × α), k ∉ m.map Prod.fst → upsert k v m = m ++ [(k, v)] := by
  intro m
  induction m with
  | nil => intro _; rfl
  | cons hd tl ih =>
    obtain ⟨k₀, v₀⟩ := hd
    intro hk
    simp only [List.map_cons, List.mem_cons] at hk
    push_neg at hk
    have hb : (k == k₀) = false := beq_false_of_ne hk.1
    simp only [upsert, hb, Bool.false_eq_true, if_false]
    rw [ih hk.2]
    rfl

/-- Building a dict by successive assignments of pairwise-distinct keys
appends the bindings in order. -/
theorem foldl_upsert_eq_append {κ α : Type} [BEq κ] [LawfulBEq κ] (f : Nat → α) :
    ∀ (l : List (Nat × κ)) (acc : List (κ × α)),
      (l.map Prod.snd).Nodup →
      (∀ k ∈ l.map Prod.snd, k ∉ acc.map Prod.fst) →
      l.foldl (fun a ip => upsert ip.2 (f ip.1) a) acc =
        acc ++ (l.map fun ip => (ip.2, f ip.1)) := by
  intro l
  induction l with
  | nil =>
    intro acc _ _
    simp
  | cons hd tl ih =>
    obtain ⟨i, p⟩ := hd
    intro acc hnd hdisj
    simp only [List.map_cons, List.nodup_cons] at hnd
    simp only [List.foldl_cons]
    rw [upsert_append_of_not_mem p (f i) acc (hdisj p (by simp))]
    rw [ih (acc ++ [(p, f i)]) hnd.2 ?_]
    · simp
    · intro k hk
      have h1 : k ∉ acc.map Prod.fst := hdisj k (by simp [hk])
      have h2 : k ≠ p := by
        intro he
        subst he
        exact hnd.1 hk
      simp [h1, h2]

/-- Game lifecycle status (`'waiting' | 'playing' | 'finished'`). -/
inductive Status
  | waiting
  | playing
  | finished
deriving DecidableEq

/-- One entry of `game['results']` (the record saved at line 332). -/
structure RoundResult where
  played_order : List Nat
  correct_order : List Nat
  is_correct : Bool
  timestamp : String
deriving DecidableEq

/-- The per-room game record built by `create_new_game` (src/ito.py line 42).
Round-keyed dicts use `Nat` keys; the `str(...)` keying in the Python code is
a serialization artifact (the conversion is injective on round numbers). -/
structure GameState where
  room_code : String
  players : List String
  current_round : Nat
  max_rounds : Nat
  cards_per_round : List (Nat × List (String × List Nat))
  results : List (Nat × RoundResult)
  created_at : String
  status : Status
deriving DecidableEq

/-- `create_new_game(room_code, players, max_rounds)` (line 42). -/
def create_new_game (room_code : String) (players : List String) (max_rounds : Nat)
    (now : String) : GameState :=
  { room_code := room_code
    players := players
    current_round := 1
    max_rounds := max_rounds
    cards_per_round := []
    results := []
    created_at := now
    status := Status.waiting }

/-- `distribute_cards(players, round_num, card_range)` (line 56).  The draw
`random.sample(all_cards, cards_needed)` is the program's entropy source; it
is passed in as `sample`, and theorems assume the contract of `random.sample`
(distinct values from `range(lo, hi + 1)`, `cards_needed` of them).  The loop
`player_cards[player] = selected_cards[i*round_num:(i+1)*round_num]` builds a
dict, so a duplicated player name keeps only its last slice — modelled by
folding the dict assignment `upsert` over the enumerated player list. -/
def distribute_cards (players : List String) (round_num : Nat) (lo hi : Nat)
    (sample : List Nat) : Option (List (String × List Nat)) :=
  if players.length * round_num > hi - lo + 1 then none
  else some (players.enum.foldl
    (fun acc ip => upsert ip.2 ((sample.drop (ip.1 * round_num)).take round_num) acc)
    [])

/-- Uncaught Python exceptions raised by the verification block: an unknown
player name raises `KeyError` at `round_cards[player]`, and indexing the
sorted hand out of range raises `IndexError`.  Neither is a `ValueError`, so
the `except ValueError` at line 353 does not catch them. -/
inductive PyExn
  | keyError
  | indexError
deriving DecidableEq

/-- The order-resolution loop (lines 310-317).  `sels` is the full submitted
`player_selections` list, `rest` the selections not yet processed, and `i`
the current position (which always equals `len(played_order)`).  Each step
takes the player's ascending-sorted hand at the index counting how many times
that player was already named among `sels[0..i-1]`. -/
def resolve_go (round_cards : List (String × List Nat)) (sels : List String) :
    List String → Nat → Except PyExn (List Nat)
  | [], _ => Except.ok []
  | p :: rest, i =>
    match round_cards.lookup p with
    | none => Except.error PyExn.keyError
    | some hand =>
      match (hand.insertionSort (· ≤ ·))[(sels.take i).count p]? with
      | none => Except.error PyExn.indexError
      | some card =>
        match resolve_go round_cards sels rest (i + 1) with
        | Except.error e => Except.error e
        | Except.ok tail => Except.ok (card :: tail)

/-- The Order Resolver: run the loop of lines 310-317 over the whole
submission. -/
def resolve_order (round_cards : List (String × List Nat)) (sels : List String) :
    Except PyExn (List Nat) :=
  resolve_go round_cards sels sels 0

/-- Lines 323-328: collect every card distributed this round (in dict order)
and sort ascending. -/
def correct_order_of (round_cards : List (String × List Nat)) : List Nat :=
  ((round_cards.map Prod.snd).flatten).insertionSort (· ≤ ·)

/-- The `st.session_state.card_reveal` record (line 341). -/
structure RevealState where
  round : Nat
  correct_order : List Nat
  played_order : List Nat
  current_card : Nat
  is_correct : Bool
deriving DecidableEq

/-- The freshly initialized reveal record of line 341 (`current_card = 0`). -/
def init_reveal (round : Nat) (correct_order played_order : List Nat)
    (is_correct : Bool) : RevealState :=
  { round := round
    correct_order := correct_order
    played_order := played_order
    current_card := 0
    is_correct := is_correct }

/-- Outcome of pressing the verification submit button (lines 307-354):
either the game is updated and saved, or the count check at line 319 shows an
error without saving, or an uncaught `KeyError`/`IndexError` aborts the
request without saving (the `except ValueError` clause does not match). -/
inductive SubmitResult
  | saved (game : GameState) (reveal : Option RevealState)
  | countError
  | crashed (e : PyExn)
deriving DecidableEq

/-- The verification block of `show_admin_view` (lines 307-354): resolve the
played order, check the count, compute the correct order and store the round
result; the reveal record is created only when `card_reveal` is not already
in the session state (line 340). -/
def submit_order (g : GameState) (reveal : Option RevealState) (selections : List String)
    (now : String) : SubmitResult :=
  let total_cards := g.players.length * g.current_round
  match g.cards_per_round.lookup g.current_round with
  | none => SubmitResult.crashed PyExn.keyError
  | some round_cards =>
    match resolve_order round_cards selections with
    | Except.error e => SubmitResult.crashed e
    | Except.ok played_order =>
      if played_order.length ≠ total_cards then SubmitResult.countError
      else
        let correct_order := correct_order_of round_cards
        let is_correct := played_order == correct_order
        let result : RoundResult :=
          { played_order := played_order
            correct_order := correct_order
            is_correct := is_correct
            timestamp := now }
        let g2 := { g with results := upsert g.current_round result g.results }
        let reveal2 :=
          match reveal with
          | none => some (init_reveal g.current_round correct_order played_order is_correct)
          | some r => some r
        SubmitResult.saved g2 reveal2

/-- Pressing the reveal button (lines 408-412): the button is rendered only
while `current_card < len(correct_order)`; pressing it increments
`current_card`.  In the terminal branch the button does not exist, so the
state is unchanged. -/
def reveal_next (r : RevealState) : RevealState :=
  if r.current_card < r.correct_order.length then
    { r with current_card := r.current_card + 1 }
  else r

/-- Which button the reveal section renders (line 361's branch): the
reveal-next button while cards remain, otherwise the continue button. -/
inductive RevealAction
  | revealNextBtn
  | continueBtn
deriving DecidableEq

/-- The branch at line 361. -/
def available_action (r : RevealState) : RevealAction :=
  if r.current_card < r.correct_order.length then RevealAction.revealNextBtn
  else RevealAction.continueBtn

/-- Per-position correctness as displayed for an already-revealed position
(lines 373-384): the position is shown correct exactly when the played value
at that index exists and equals the correct value (`None == card` is false in
Python). -/
def position_correct (r : RevealState) (i : Nat) : Bool :=
  match r.correct_order[i]?, r.played_order[i]? with
  | some card, some played => played == card
  | some _, none => false
  | none, _ => false

/-- The continue handler (lines 465-478): advance to the next round in
`waiting`, or finish the game when the last round was played. -/
def advance_or_finish (g : GameState) : GameState :=
  if g.current_round < g.max_rounds then
    { g with current_round := g.current_round + 1, status := Status.waiting }
  else { g with status := Status.finished }

/-- The restart handler (lines 486-497). -/
def restart (g : GameState) : GameState :=
  { g with current_round := 1
           status := Status.waiting
           cards_per_round := []
           results := [] }

/-- The `games` dict loaded from the store, keyed by room code. -/
abbrev Store := List (String × GameState)

/-- The distribute-cards button handler (lines 259-270): only rendered in
`waiting`; a `None` or empty result from `distribute_cards` is falsy, so
nothing is stored or saved in that case. -/
def distribute_action (games : Store) (room_code : String) (sample : List Nat) : Store :=
  match games.lookup room_code with
  | none => games
  | some g =>
    if g.status = Status.waiting then
      match distribute_cards g.players g.current_round 1 100 sample with
      | none => games
      | some cards =>
        if cards = [] then games
        else
          upsert room_code
            { g with
              cards_per_round := upsert g.current_round cards g.cards_per_round
              status := Status.playing } games
    else games

/-- The verification submit handler at store level (lines 307-354): the form
is only rendered while the game is `playing`; on success the mutated game is
written back under its own room code and saved. -/
def submit_action (games : Store) (room_code : String) (reveal : Option RevealState)
    (sels : List String) (now : String) : Store × Option RevealState :=
  match games.lookup room_code with
  | none => (games, reveal)
  | some g =>
    if g.status = Status.playing then
      match submit_order g reveal sels now with
      | SubmitResult.saved g2 reveal2 => (upsert room_code g2 games, reveal2)
      | _ => (games, reveal)
    else (games, reveal)

/-- The continue button handler at store level (lines 465-478): only
reachable while `playing` with a fully revealed `card_reveal` in the session
state; it deletes the reveal record, advances or finishes the game, and
writes it back under its own room code. -/
def advance_action (games : Store) (room_code : String) (reveal : Option RevealState) :
    Store × Option RevealState :=
  match games.lookup room_code, reveal with
  | some g, some r =>
    if g.status = Status.playing ∧ ¬ r.current_card < r.correct_order.length then
      (upsert room_code (advance_or_finish g) games, none)
    else (games, reveal)
  | _, _ => (games, reveal)

/-- The restart button handler at store level (lines 486-497). -/
def restart_action (games : Store) (room_code : String) : Store :=
  match games.lookup room_code with
  | none => games
  | some g => upsert room_code (restart g) games

/-- C5: capacity failure of `distribute_cards` is exactly `p * r >
poolSize`, and on failure the admin action leaves the store (hence round,
status and `cards_per_round`) untouched. -/
theorem C5_capacity_error :
    (∀ (players : List String) (round_num lo hi : Nat) (sample : List Nat),
      distribute_cards players round_num lo hi sample = none ↔
        hi - lo + 1 < players.length * round_num) ∧
    (∀ (games : Store) (room_code : String) (g : GameState) (sample : List Nat),
      games.lookup room_code = some g →
      100 < g.players.length * g.current_round →
      distribute_action games room_code sample = games) := by
  constructor
  · intro players round_num lo hi sample
    simp only [distribute_cards, gt_iff_lt]
    split
    · simpa
    · simp_all
  · intro games room_code g sample hlook hcap
    have hnone : distribute_cards g.players g.current_round 1 100 sample = none := by
      simp only [distribute_cards, gt_iff_lt]
      split
      · rfl
      · omega
    simp [distribute_action, hlook, hnone]

/-- Witness for C5 at a concrete over-capacity input: 2 players in round 51
need 102 cards from the pool 1..100. -/
theorem C5_witness :
    (distribute_cards ["A", "B"] 51 1 100 [7] = none ↔ 100 < 102) ∧
    distribute_action
      [("R", { create_new_game "R" ["A", "B"] 60 "t0" with current_round := 51 })]
      "R" [7] =
      [("R", { create_new_game "R" ["A", "B"] 60 "t0" with current_round := 51 })] :=
  ⟨C5_capacity_error.1 ["A", "B"] 51 1 100 [7],
   C5_capacity_error.2 _ "R"
     { create_new_game "R" ["A", "B"] 60 "t0" with current_round := 51 }
     [7] (by decide) (by decide)⟩

/-- Splitting a list of length `p * r` into `p` successive blocks of `r`
recovers the list. -/
theorem flatten_blocks (r : Nat) :
    ∀ (p : Nat) (s : List Nat), s.length = p * r →
      ((List.range p).map fun i => (s.drop (i * r)).take r).flatten = s := by
  intro p
  induction p with
  | zero =>
    intro s hs
    simp only [Nat.zero_mul] at hs
    simp [List.eq_nil_of_length_eq_zero hs]
  | succ p ih =>
    intro s hs
    rw [List.range_succ_eq_map]
    simp only [List.map_cons, List.map_map, List.flatten_cons, Nat.zero_mul,
      List.drop_zero]
    have hmap :
        List.map ((fun i => (s.drop (i * r)).take r) ∘ Nat.succ) (List.range p) =
        List.map (fun i => (((s.drop r).drop (i * r)).take r)) (List.range p) := by
      apply List.map_congr_left
      intro i _
      have : (s.drop r).drop (i * r) = s.drop (Nat.succ i * r) := by
        rw [List.drop_drop]
        congr 1
        calc r + i * r = i * r + r := by omega
        _ = Nat.succ i * r := by rw [Nat.succ_mul]
      simp [Function.comp, this]
    rw [hmap, ih (s.drop r) (by simp [List.length_drop, hs, Nat.succ_mul])]
    exact List.take_append_drop r s

/-- C2 as amended: for pairwise-distinct player names (duplicates are a
configuration error the dict-building loop cannot represent), with the
`random.sample` contract assumed (distinct in-range values, `p * r` of them)
and the pool large enough, `distribute_cards` assigns each player a hand of
exactly `round_num` distinct in-range values; the hands are the successive
blocks of the sample in player-list order, pairwise disjoint, and their union
is the whole sample of size `p * r`. -/
theorem C2_distribute_partition :
    ∀ (players : List String) (round_num lo hi : Nat) (sample : List Nat),
      2 ≤ players.length → 1 ≤ round_num →
      players.Nodup →
      players.length * round_num ≤ hi - lo + 1 →
      sample.length = players.length * round_num →
      sample.Nodup →
      (∀ x ∈ sample, lo ≤ x ∧ x ≤ hi) →
      ∃ cards,
        distribute_cards players round_num lo hi sample = some cards ∧
        cards.map Prod.fst = players ∧
        (cards.map Prod.snd).flatten = sample ∧
        ((cards.map Prod.snd).flatten).length = players.length * round_num ∧
        (∀ hand ∈ cards.map Prod.snd,
          hand.length = round_num ∧ hand.Nodup ∧ ∀ x ∈ hand, lo ≤ x ∧ x ≤ hi) ∧
        List.Pairwise List.Disjoint (cards.map Prod.snd) := by
  intro players round_num lo hi sample hp hr hnodup hcap hlen hnd hrange
  have hdict : players.enum.foldl
      (fun acc ip => upsert ip.2 ((sample.drop (ip.1 * round_num)).take round_num) acc)
      [] =
      players.enum.map fun ip =>
        (ip.2, (sample.drop (ip.1 * round_num)).take round_num) := by
    have h := foldl_upsert_eq_append
      (fun i => (sample.drop (i * round_num)).take round_num) players.enum []
      (by rw [List.enum_map_snd]; exact hnodup)
      (by intro k _; simp)
    simpa using h
  refine ⟨players.enum.map fun ip =>
    (ip.2, (sample.drop (ip.1 * round_num)).take round_num), ?_, ?_, ?_, ?_, ?_, ?_⟩
  · simp only [distribute_cards, gt_iff_lt]
    split
    · omega
    · rw [hdict]
  · rw [List.map_map]
    have : (Prod.fst ∘ fun ip : Nat × String =>
        (ip.2, (sample.drop (ip.1 * round_num)).take round_num)) = Prod.snd := rfl
    rw [this, List.enum_map_snd]
  · rw [List.map_map]
    have : (Prod.snd ∘ fun ip : Nat × String =>
        (ip.2, (sample.drop (ip.1 * round_num)).take round_num)) =
        (fun i => (sample.drop (i * round_num)).take round_num) ∘ Prod.fst := rfl
    rw [this, ← List.map_map, List.enum_map_fst]
    exact flatten_blocks round_num players.length sample hlen
  · rw [List.map_map]
    have : (Prod.snd ∘ fun ip : Nat × String =>
        (ip.2, (sample.drop (ip.1 * round_num)).take round_num)) =
        (fun i => (sample.drop (i * round_num)).take round_num) ∘ Prod.fst := rfl
    rw [this, ← List.map_map, List.enum_map_fst,
      flatten_blocks round_num players.length sample hlen]
    exact hlen
  · intro hand hmem
    rw [List.map_map] at hmem
    have hme : (Prod.snd ∘ fun ip : Nat × String =>
        (ip.2, (sample.drop (ip.1 * round_num)).take round_num)) =
        (fun i => (sample.drop (i * round_num)).take round_num) ∘ Prod.fst := rfl
    rw [hme, ← List.map_map, List.enum_map_fst] at hmem
    rw [List.mem_map] at hmem
    obtain ⟨i, hi, rfl⟩ := hmem
    rw [List.mem_range] at hi
    have hsub : ((sample.drop (i * round_num)).take round_num).Sublist sample :=
      (List.take_sublist _ _).trans (List.drop_sublist _ _)
    refine ⟨?_, hsub.nodup hnd, fun x hx => hrange x (hsub.subset hx)⟩
    have hile : (i + 1) * round_num ≤ players.length * round_num :=
      Nat.mul_le_mul_right round_num hi
    rw [List.length_take, List.length_drop, hlen]
    have : (i + 1) * round_num = i * round_num + round_num := by rw [Nat.add_mul]; omega
    omega
  · have hflat : ((players.enum.map fun ip =>
        (ip.2, (sample.drop (ip.1 * round_num)).take round_num)).map Prod.snd).flatten =
        sample := by
      rw [List.map_map]
      have : (Prod.snd ∘ fun ip : Nat × String =>
          (ip.2, (sample.drop (ip.1 * round_num)).take round_num)) =
          (fun i => (sample.drop (i * round_num)).take round_num) ∘ Prod.fst := rfl
      rw [this, ← List.map_map, List.enum_map_fst]
      exact flatten_blocks round_num players.length sample hlen
    have : (((players.enum.map fun ip =>
        (ip.2, (sample.drop (ip.1 * round_num)).take round_num)).map Prod.snd).flatten).Nodup := by
      rw [hflat]; exact hnd
    exact (List.nodup_flatten.mp this).2

/-- C2 counterexample: the claim as stated, without distinct player names,
fails — for players `[A, A]` in round 1 the dict-building loop keeps only the
last slice, so the resulting mapping has one hand instead of two and its
union has size 1, not `p * r = 2`. -/
theorem C2_counterexample :
    distribute_cards ["A", "A"] 1 1 100 [5, 7] = some [("A", [7])] ∧
    ([("A", [7])] : List (String × List Nat)).map Prod.fst ≠ ["A", "A"] ∧
    ((([("A", [7])] : List (String × List Nat)).map Prod.snd).flatten).length ≠
      (["A", "A"] : List String).length * 1 := by
  refine ⟨by decide, by decide, by decide⟩

/-- Witness for C2 at a concrete input: 2 players with distinct names, round
2, sample `[10, 50, 20, 30]` from the pool 1..100. -/
theorem C2_witness :
    ∃ cards,
      distribute_cards ["A", "B"] 2 1 100 [10, 50, 20, 30] = some cards ∧
      cards.map Prod.fst = ["A", "B"] ∧
      (cards.map Prod.snd).flatten = [10, 50, 20, 30] ∧
      ((cards.map Prod.snd).flatten).length = 2 * 2 ∧
      (∀ hand ∈ cards.map Prod.snd,
        hand.length = 2 ∧ hand.Nodup ∧ ∀ x ∈ hand, 1 ≤ x ∧ x ≤ 100) ∧
      List.Pairwise List.Disjoint (cards.map Prod.snd) := by
  have h := C2_distribute_partition ["A", "B"] 2 1 100 [10, 50, 20, 30]
    (by decide) (by decide) (by decide) (by decide) (by decide) (by decide) (by decide)
  simpa using h

/-- Modelled from the spec's resolver contract, for comparison with the
code: the value at position `i` is the selected player's ascending-sorted
hand at the zero-based index `k` counting that player's earlier occurrences
among `selections[0..i-1]`. -/
def specResolvedValue (round_cards : List (String × List Nat)) (sels : List String)
    (i : Nat) : Option Nat :=
  match sels[i]? with
  | none => none
  | some p =>
    (round_cards.lookup p).bind fun hand =>
      (hand.insertionSort (· ≤ ·))[(sels.take i).count p]?

/-- The resolution loop computes, position by position, exactly the spec's
per-position value, provided every position's value is defined. -/
theorem resolve_go_spec (round_cards : List (String × List Nat)) (sels : List String) :
    ∀ (rest : List String) (i : Nat), rest = sels.drop i →
      (∀ j, i ≤ j → j < sels.length → (specResolvedValue round_cards sels j).isSome) →
      ∃ out, resolve_go round_cards sels rest i = Except.ok out ∧
        out.length = rest.length ∧
        ∀ m, out[m]? = specResolvedValue round_cards sels (i + m) := by
  intro rest
  induction rest with
  | nil =>
    intro i hdrop hsome
    refine ⟨[], rfl, rfl, ?_⟩
    intro m
    have hlen : sels.length ≤ i := by
      have h := congrArg List.length hdrop
      simp only [List.length_nil, List.length_drop] at h
      omega
    have hnone : sels[i + m]? = none := List.getElem?_eq_none (by omega)
    simp [specResolvedValue, hnone]
  | cons p rest ih =>
    intro i hdrop hsome
    have hget : sels[i]? = some p := by
      have h0 : (sels.drop i)[0]? = sels[i + 0]? := List.getElem?_drop sels i 0
      rw [← hdrop] at h0
      simpa using h0.symm
    have hilt : i < sels.length := by
      by_contra hc
      push_neg at hc
      rw [List.getElem?_eq_none hc] at hget
      cases hget
    have hisome := hsome i (le_refl i) hilt
    cases hlook : round_cards.lookup p with
    | none =>
      simp only [specResolvedValue, hget, hlook] at hisome
      simp at hisome
    | some hand =>
      simp only [specResolvedValue, hget, hlook, Option.some_bind] at hisome
      cases hcard : (hand.insertionSort (· ≤ ·))[(sels.take i).count p]? with
      | none => rw [hcard] at hisome; simp at hisome
      | some card =>
        have hrest : rest = sels.drop (i + 1) := by
          have h1 : (sels.drop i).drop 1 = sels.drop (i + 1) := List.drop_drop 1 i sels
          rw [← hdrop] at h1
          simpa using h1
        obtain ⟨out, hout, hlen, hm⟩ :=
          ih (i + 1) hrest (fun j hj hjl => hsome j (by omega) hjl)
        refine ⟨card :: out, ?_, by simp [hlen], ?_⟩
        · rw [resolve_go, hlook]
          simp only [hcard, hout]
        · intro m
          cases m with
          | zero =>
            simp only [Nat.add_zero]
            simp only [specResolvedValue, hget, hlook, Option.some_bind, hcard]
            exact List.getElem?_cons_zero
          | succ m =>
            have h2 := hm m
            have h3 : i + (m + 1) = i + 1 + m := by omega
            rw [h3, List.getElem?_cons_succ]
            exact h2

/-- C1: for any selections naming only players of the round (each at most as
often as that player's hand size), the resolver succeeds and yields at every
position the spec's value — the player's ascending-sorted hand at the index
counting that player's earlier occurrences; in particular for hands
`A = [10, 50]`, `B = [20]` and selections `[A, B, A]` it yields
`[10, 20, 50]`. -/
theorem C1_resolver :
    (∀ (round_cards : List (String × List Nat)) (sels : List String),
      (∀ p ∈ sels, ∃ hand, round_cards.lookup p = some hand) →
      (∀ p hand, round_cards.lookup p = some hand → sels.count p ≤ hand.length) →
      ∃ out, resolve_order round_cards sels = Except.ok out ∧
        out.length = sels.length ∧
        ∀ i, out[i]? = specResolvedValue round_cards sels i) ∧
    resolve_order [("A", [10, 50]), ("B", [20])] ["A", "B", "A"] =
      Except.ok [10, 20, 50] := by
  constructor
  · intro round_cards sels hnamed hcount
    have hsome : ∀ j, 0 ≤ j → j < sels.length →
        (specResolvedValue round_cards sels j).isSome := by
      intro j _ hjl
      have hget : sels[j]? = some sels[j] := List.getElem?_eq_getElem hjl
      obtain ⟨hand, hhand⟩ := hnamed sels[j] (sels.getElem_mem hjl)
      have hk : (sels.take j).count sels[j] + 1 ≤ hand.length := by
        have hsucc : sels.take (j + 1) = sels.take j ++ [sels[j]] := by
          rw [List.take_succ, hget]
          rfl
        have hc1 : (sels.take (j + 1)).count sels[j] =
            (sels.take j).count sels[j] + 1 := by
          rw [hsucc, List.count_append]
          simp
        have hc2 : (sels.take (j + 1)).count sels[j] ≤ sels.count sels[j] :=
          (List.take_sublist (j + 1) sels).count_le sels[j]
        have hc3 := hcount sels[j] hand hhand
        omega
      have hklt : (sels.take j).count sels[j] <
          (hand.insertionSort (· ≤ ·)).length := by
        rw [List.length_insertionSort]
        omega
      simp only [specResolvedValue, hget, hhand, Option.some_bind]
      rw [List.getElem?_eq_getElem hklt]
      rfl
    obtain ⟨out, hout, hlen, hm⟩ :=
      resolve_go_spec round_cards sels sels 0 rfl hsome
    refine ⟨out, hout, hlen, ?_⟩
    intro i
    simpa using hm i
  · rfl

/-- Witness for C1 at the concrete input of the claim. -/
theorem C1_witness :
    (∃ out, resolve_order [("A", [10, 50]), ("B", [20])] ["A", "B", "A"] =
        Except.ok out ∧ out.length = 3 ∧
        ∀ i, out[i]? =
          specResolvedValue [("A", [10, 50]), ("B", [20])] ["A", "B", "A"] i) ∧
    resolve_order [("A", [10, 50]), ("B", [20])] ["A", "B", "A"] =
      Except.ok [10, 20, 50] := by
  refine ⟨?_, C1_resolver.2⟩
  have h := C1_resolver.1 [("A", [10, 50]), ("B", [20])] ["A", "B", "A"] ?_ ?_
  · simpa using h
  · intro p hp
    simp only [List.mem_cons, List.not_mem_nil, or_false] at hp
    rcases hp with rfl | rfl | rfl
    · exact ⟨[10, 50], rfl⟩
    · exact ⟨[20], rfl⟩
    · exact ⟨[10, 50], rfl⟩
  · intro p hand hl
    by_cases hA : p = "A"
    · subst hA
      have : hand = [10, 50] := by
        rw [show (([("A", [10, 50]), ("B", [20])] :
          List (String × List Nat)).lookup "A") = some [10, 50] from rfl] at hl
        exact (Option.some_inj.mp hl).symm
      subst this
      decide
    · by_cases hB : p = "B"
      · subst hB
        have : hand = [20] := by
          rw [show (([("A", [10, 50]), ("B", [20])] :
            List (String × List Nat)).lookup "B") = some [20] from rfl] at hl
          exact (Option.some_inj.mp hl).symm
        subst this
        decide
      · simp [List.lookup, beq_false_of_ne hA, beq_false_of_ne hB] at hl

/-- C8: restart resets `current_round`, `status`, `cards_per_round` and
`results`, and preserves `room_code`, `players` and `max_rounds`, from any
prior state. -/
theorem C8_restart_resets :
    ∀ g : GameState,
      (restart g).current_round = 1 ∧ (restart g).status = Status.waiting ∧
      (restart g).cards_per_round = [] ∧ (restart g).results = [] ∧
      (restart g).room_code = g.room_code ∧ (restart g).players = g.players ∧
      (restart g).max_rounds = g.max_rounds := by
  intro g
  exact ⟨rfl, rfl, rfl, rfl, rfl, rfl, rfl⟩

/-- Pressing reveal-next while cards remain advances the index by one. -/
theorem reveal_next_of_lt {r : RevealState}
    (h : r.current_card < r.correct_order.length) :
    reveal_next r = { r with current_card := r.current_card + 1 } := by
  simp [reveal_next, h]

/-- Iterating reveal-next while within bounds adds the step count to the
index and changes nothing else. -/
theorem reveal_next_iterate (n : Nat) :
    ∀ r : RevealState, r.current_card + n ≤ r.correct_order.length →
      reveal_next^[n] r = { r with current_card := r.current_card + n } := by
  induction n with
  | zero =>
    intro r h
    simp
  | succ n ih =>
    intro r h
    rw [Function.iterate_succ_apply, reveal_next_of_lt (by omega)]
    rw [ih { r with current_card := r.current_card + 1 } (by simp; omega)]
    have harith : r.current_card + 1 + n = r.current_card + (n + 1) := by omega
    simp only [harith]

/-- C6: the reveal sequencer starts at index 0; the reveal-next button is
rendered exactly while `current_card < len(correct_order)` (otherwise the
continue button is); pressing it advances the index by exactly one,
preserving the orders; after `len(correct_order)` presses the state is
terminal and a further press is a no-op; an already-revealed position is
displayed correct exactly when the played value at that index exists and
equals the correct value, by a pure function of the state. -/
theorem C6_reveal_sequencer :
    (∀ (round : Nat) (co po : List Nat) (ic : Bool),
      (init_reveal round co po ic).current_card = 0) ∧
    (∀ r : RevealState,
      (available_action r = RevealAction.revealNextBtn ↔
        r.current_card < r.correct_order.length) ∧
      (available_action r = RevealAction.continueBtn ↔
        ¬ r.current_card < r.correct_order.length)) ∧
    (∀ r : RevealState, r.current_card < r.correct_order.length →
      reveal_next r = { r with current_card := r.current_card + 1 }) ∧
    (∀ r : RevealState, ¬ r.current_card < r.correct_order.length →
      reveal_next r = r) ∧
    (∀ (round : Nat) (co po : List Nat) (ic : Bool),
      (reveal_next^[co.length] (init_reveal round co po ic)).current_card =
        co.length ∧
      reveal_next^[co.length + 1] (init_reveal round co po ic) =
        reveal_next^[co.length] (init_reveal round co po ic)) ∧
    (∀ (r : RevealState) (i : Nat),
      position_correct r i = true ↔
        ∃ c, r.correct_order[i]? = some c ∧ r.played_order[i]? = some c) := by
  refine ⟨fun _ _ _ _ => rfl, ?_, ?_, ?_, ?_, ?_⟩
  · intro r
    by_cases h : r.current_card < r.correct_order.length
    · simp [available_action, h]
    · simp [available_action, h]
  · intro r h
    exact reveal_next_of_lt h
  · intro r h
    simp [reveal_next, h]
  · intro round co po ic
    have hterm : reveal_next^[co.length] (init_reveal round co po ic) =
        { init_reveal round co po ic with current_card := co.length } := by
      rw [reveal_next_iterate co.length (init_reveal round co po ic) (by simp [init_reveal])]
      simp [init_reveal]
    constructor
    · rw [hterm]
    · rw [Function.iterate_succ_apply', hterm]
      simp [reveal_next, init_reveal]
  · intro r i
    unfold position_correct
    cases hco : r.correct_order[i]? with
    | none => simp
    | some card =>
      cases hpo : r.played_order[i]? with
      | none => simp
      | some played =>
        simp only [beq_iff_eq]
        constructor
        · intro h
          exact ⟨card, rfl, by rw [h]⟩
        · rintro ⟨c, hc1, hc2⟩
          simp only [Option.some_inj] at hc1 hc2
          omega

/-- Witness for C6 at a concrete reveal state. -/
theorem C6_witness :
    (init_reveal 1 [10, 20] [10, 30] false).current_card = 0 ∧
    reveal_next ⟨1, [10, 20], [10, 30], 0, false⟩ = ⟨1, [10, 20], [10, 30], 1, false⟩ ∧
    reveal_next ⟨1, [10, 20], [10, 30], 2, false⟩ = ⟨1, [10, 20], [10, 30], 2, false⟩ ∧
    (reveal_next^[2] (init_reveal 1 [10, 20] [10, 30] false)).current_card = 2 ∧
    (position_correct ⟨1, [10, 20], [10, 30], 2, false⟩ 0 = true ↔
      ∃ c, ([10, 20] : List Nat)[0]? = some c ∧ ([10, 30] : List Nat)[0]? = some c) :=
  ⟨C6_reveal_sequencer.1 1 [10, 20] [10, 30] false,
   C6_reveal_sequencer.2.2.1 _ (by decide),
   C6_reveal_sequencer.2.2.2.1 _ (by decide),
   (C6_reveal_sequencer.2.2.2.2.1 1 [10, 20] [10, 30] false).1,
   C6_reveal_sequencer.2.2.2.2.2 _ 0⟩

/-- A concrete room in `playing` status: round 2, hands `A = [10, 50]`,
`B = [20, 30]`. -/
def gPlaying : GameState :=
  { create_new_game "ROOM" ["A", "B"] 5 "t0" with
    current_round := 2
    cards_per_round := [(2, [("A", [10, 50]), ("B", [20, 30])])]
    status := Status.playing }

/-- C3 (code bug): a selection naming an unknown player aborts with an
uncaught `KeyError`, and over-naming a player aborts with an uncaught
`IndexError` — the `except ValueError` clause does not catch either, so no
validation error is reported for these malformed submissions (the state is
still unchanged and nothing is saved); only a wrong selection count with
otherwise resolvable selections reports the validation error. -/
theorem C3_malformed_submission :
    submit_order gPlaying none ["A", "B", "C", "A"] "t1" =
      SubmitResult.crashed PyExn.keyError ∧
    submit_order gPlaying none ["A", "A", "A", "B"] "t1" =
      SubmitResult.crashed PyExn.indexError ∧
    submit_action [("ROOM", gPlaying)] "ROOM" none ["A", "B", "C", "A"] "t1" =
      ([("ROOM", gPlaying)], none) ∧
    submit_action [("ROOM", gPlaying)] "ROOM" none ["A", "A", "A", "B"] "t1" =
      ([("ROOM", gPlaying)], none) ∧
    submit_order gPlaying none ["A", "B"] "t1" = SubmitResult.countError ∧
    submit_action [("ROOM", gPlaying)] "ROOM" none ["A", "B"] "t1" =
      ([("ROOM", gPlaying)], none) := by
  refine ⟨by decide, by decide, by decide, by decide, by decide, by decide⟩

/-- The concrete playing room of `gPlaying` with a result already recorded
for round 2, as after one successful verification. -/
def gC4 : GameState :=
  { gPlaying with
    results := [(2, ⟨[10, 20, 30, 50], [10, 20, 30, 50], true, "t1"⟩)] }

/-- The reveal record left in the session by the first verification, two
cards already revealed. -/
def rOld : RevealState :=
  ⟨2, [10, 20, 30, 50], [10, 20, 30, 50], 2, true⟩

/-- C4 counterexample: resubmitting while a reveal record is still present in
the session overwrites the stored result but leaves the reveal sequencer
untouched — its index stays 2 and it keeps the old orders, contrary to the
claim that it restarts at index 0 with the new round data. -/
theorem C4_counterexample :
    submit_order gC4 (some rOld) ["B", "A", "B", "A"] "t2" =
      SubmitResult.saved
        { gC4 with results := [(2, ⟨[20, 10, 30, 50], [10, 20, 30, 50], false, "t2"⟩)] }
        (some rOld) ∧
    rOld.current_card = 2 ∧ rOld.played_order ≠ [20, 10, 30, 50] := by
  refine ⟨by decide, by decide, by decide⟩

/-- C4 amended: a resubmission accepted while `playing` with a result already
recorded overwrites `results[currentRound]` with the new Round Result — the
newly resolved played order, the round's correct order, their equality as
`is_correct`, and the new timestamp; the reveal sequencer is restarted at
index 0 with that new data only when no reveal record exists in the session,
and an existing reveal record is left unchanged. -/
theorem C4_amended_resubmission (g : GameState) (rv : Option RevealState)
    (sels : List String) (now : String) (g2 : GameState) (rv2 : Option RevealState)
    (hplay : g.status = Status.playing)
    (hprev : (g.results.lookup g.current_round).isSome)
    (hsub : submit_order g rv sels now = SubmitResult.saved g2 rv2) :
    ∃ round_cards played_order,
      g.cards_per_round.lookup g.current_round = some round_cards ∧
      resolve_order round_cards sels = Except.ok played_order ∧
      g2 = { g with
        results := upsert g.current_round
          ⟨played_order, correct_order_of round_cards,
            played_order == correct_order_of round_cards, now⟩ g.results } ∧
      (rv = none → rv2 = some (init_reveal g.current_round
        (correct_order_of round_cards) played_order
        (played_order == correct_order_of round_cards))) ∧
      (∀ r, rv = some r → rv2 = some r) := by
  simp only [submit_order] at hsub
  split at hsub
  · cases hsub
  · rename_i round_cards hrc
    split at hsub
    · cases hsub
    · rename_i played_order hres
      split at hsub
      · cases hsub
      · cases hsub
        refine ⟨round_cards, played_order, hrc, hres, rfl, ?_, ?_⟩
        · intro h
          subst h
          rfl
        · intro r h
          subst h
          rfl

/-- Witness for C4 at the concrete resubmission of the counterexample. -/
theorem C4_witness :
    ∃ round_cards played_order,
      gC4.cards_per_round.lookup gC4.current_round = some round_cards ∧
      resolve_order round_cards ["B", "A", "B", "A"] = Except.ok played_order ∧
      ({ gC4 with results := [(2, ⟨[20, 10, 30, 50], [10, 20, 30, 50], false, "t2"⟩)] } :
          GameState) =
        { gC4 with
            results := upsert gC4.current_round
              ⟨played_order, correct_order_of round_cards,
                played_order == correct_order_of round_cards, "t2"⟩ gC4.results } ∧
      ((some rOld : Option RevealState) = none →
        (some rOld : Option RevealState) = some (init_reveal gC4.current_round
          (correct_order_of round_cards) played_order
          (played_order == correct_order_of round_cards))) ∧
      (∀ r, (some rOld : Option RevealState) = some r →
        (some rOld : Option RevealState) = some r) :=
  C4_amended_resubmission gC4 (some rOld) ["B", "A", "B", "A"] "t2"
    { gC4 with results := [(2, ⟨[20, 10, 30, 50], [10, 20, 30, 50], false, "t2"⟩)] }
    (some rOld) (by decide) (by decide) (by decide)

/-- One admin viewing session: the shared game record plus the ephemeral
`st.session_state.card_reveal`. -/
structure Session where
  game : GameState
  reveal : Option RevealState
deriving DecidableEq

/-- The admin actions that mutate a room or its reveal record, with the
rendering guards under which `show_admin_view` makes each available. -/
inductive Step : Session → Session → Prop
  | distribute (s : Session) (sample : List Nat) (cards : List (String × List Nat)) :
      s.game.status = Status.waiting →
      distribute_cards s.game.players s.game.current_round 1 100 sample = some cards →
      cards ≠ [] →
      Step s ⟨{ s.game with
        cards_per_round := upsert s.game.current_round cards s.game.cards_per_round
        status := Status.playing }, s.reveal⟩
  | submit (s : Session) (sels : List String) (now : String)
      (g2 : GameState) (rv2 : Option RevealState) :
      s.game.status = Status.playing →
      submit_order s.game s.reveal sels now = SubmitResult.saved g2 rv2 →
      Step s ⟨g2, rv2⟩
  | reveal (s : Session) (r : RevealState) :
      s.game.status = Status.playing →
      s.reveal = some r →
      r.current_card < r.correct_order.length →
      Step s ⟨s.game, some (reveal_next r)⟩
  | advance (s : Session) (r : RevealState) :
      s.game.status = Status.playing →
      s.reveal = some r →
      ¬ r.current_card < r.correct_order.length →
      Step s ⟨advance_or_finish s.game, none⟩
  | restartStep (s : Session) :
      Step s ⟨restart s.game, none⟩

/-- Sessions reachable from room creation (the creation form enforces at
least one round). -/
inductive Reachable : Session → Prop
  | init (room_code : String) (players : List String) (max_rounds : Nat) (now : String) :
      1 ≤ max_rounds →
      Reachable ⟨create_new_game room_code players max_rounds now, none⟩
  | step {s t : Session} : Reachable s → Step s t → Reachable t

/-- The inductive invariant: rounds stay within bounds, a finished game sits
at the last round with its result recorded, and a live reveal record implies
a playing game whose current round already has a recorded result. -/
def SessionInv (s : Session) : Prop :=
  1 ≤ s.game.max_rounds ∧
  s.game.current_round ≤ s.game.max_rounds ∧
  (s.game.status = Status.finished →
    s.game.current_round = s.game.max_rounds ∧
    (s.game.results.lookup s.game.current_round).isSome) ∧
  (∀ r : RevealState, s.reveal = some r →
    s.game.status = Status.playing ∧
    (s.game.results.lookup s.game.current_round).isSome)

/-- A successful submit changes only `results` (overwriting the current
round's entry) and yields a reveal record. -/
theorem submit_order_saved (g : GameState) (rv : Option RevealState)
    (sels : List String) (now : String) (g2 : GameState) (rv2 : Option RevealState)
    (h : submit_order g rv sels now = SubmitResult.saved g2 rv2) :
    g2.status = g.status ∧ g2.current_round = g.current_round ∧
    g2.max_rounds = g.max_rounds ∧ g2.players = g.players ∧
    g2.room_code = g.room_code ∧ g2.cards_per_round = g.cards_per_round ∧
    (g2.results.lookup g.current_round).isSome ∧ rv2.isSome := by
  simp only [submit_order] at h
  split at h
  · cases h
  · split at h
    · cases h
    · split at h
      · cases h
      · cases h
        refine ⟨rfl, rfl, rfl, rfl, rfl, rfl, ?_, ?_⟩
        · simp [lookup_upsert_self]
        · cases rv
          · rfl
          · rfl

/-- Every step of the admin interface preserves the invariant. -/
theorem step_preserves_inv {s t : Session} (hs : SessionInv s) (hst : Step s t) :
    SessionInv t := by
  cases hst with
  | distribute sample cards hw hd hne =>
    obtain ⟨h1, h2, h3, h4⟩ := hs
    refine ⟨h1, h2, ?_, ?_⟩
    · intro hf
      cases hf
    · intro r hr
      obtain ⟨hc, -⟩ := h4 r hr
      rw [hw] at hc
      cases hc
  | submit sels now g2 rv2 hp hsub =>
    obtain ⟨h1, h2, h3, h4⟩ := hs
    obtain ⟨hst2, hcr, hmr, -, -, -, hres, -⟩ :=
      submit_order_saved s.game s.reveal sels now g2 rv2 hsub
    refine ⟨?_, ?_, ?_, ?_⟩
    · show 1 ≤ g2.max_rounds
      rw [hmr]; exact h1
    · show g2.current_round ≤ g2.max_rounds
      rw [hcr, hmr]; exact h2
    · intro hf
      have hf2 : g2.status = Status.finished := hf
      rw [hst2, hp] at hf2
      cases hf2
    · intro r hr
      refine ⟨?_, ?_⟩
      · show g2.status = Status.playing
        rw [hst2]; exact hp
      · show (g2.results.lookup g2.current_round).isSome
        rw [hcr]; exact hres
  | reveal r hp hr hlt =>
    obtain ⟨h1, h2, h3, h4⟩ := hs
    refine ⟨h1, h2, ?_, ?_⟩
    · intro hf
      rw [hp] at hf
      cases hf
    · intro r2 hr2
      exact ⟨hp, (h4 r hr).2⟩
  | advance r hp hr hterm =>
    obtain ⟨h1, h2, h3, h4⟩ := hs
    have hres := (h4 r hr).2
    by_cases hlt : s.game.current_round < s.game.max_rounds
    · refine ⟨?_, ?_, ?_, ?_⟩
      · simpa [advance_or_finish, hlt] using h1
      · simp only [advance_or_finish, if_pos hlt]
        omega
      · intro hf
        simp only [advance_or_finish, if_pos hlt] at hf
        cases hf
      · intro r2 hr2
        cases hr2
    · refine ⟨?_, ?_, ?_, ?_⟩
      · simpa [advance_or_finish, hlt] using h1
      · simpa [advance_or_finish, hlt] using h2
      · intro hf
        refine ⟨?_, ?_⟩
        · simp only [advance_or_finish, if_neg hlt]
          omega
        · simpa [advance_or_finish, hlt] using hres
      · intro r2 hr2
        cases hr2
  | restartStep =>
    obtain ⟨h1, h2, h3, h4⟩ := hs
    refine ⟨h1, ?_, ?_, ?_⟩
    · show (restart s.game).current_round ≤ (restart s.game).max_rounds
      simpa [restart] using h1
    · intro hf
      cases hf
    · intro r hr
      cases hr

/-- Every reachable session satisfies the invariant. -/
theorem reachable_inv {s : Session} (h : Reachable s) : SessionInv s := by
  induction h with
  | init room_code players max_rounds now hmr =>
    refine ⟨hmr, hmr, ?_, ?_⟩
    · intro hf
      cases hf
    · intro r hr
      cases hr
  | step hr hst ih =>
    exact step_preserves_inv ih hst

/-- C7: continue advances a non-final round to `waiting` with the round
incremented, and finishes the game on the last round leaving the round
unchanged; and in every reachable session, a finished game is at its last
round with a recorded result for it. -/
theorem C7_advance_and_finished :
    (∀ g : GameState, g.current_round < g.max_rounds →
      advance_or_finish g =
        { g with current_round := g.current_round + 1, status := Status.waiting }) ∧
    (∀ g : GameState, g.current_round = g.max_rounds →
      advance_or_finish g = { g with status := Status.finished }) ∧
    (∀ s : Session, Reachable s → s.game.status = Status.finished →
      s.game.current_round = s.game.max_rounds ∧
      (s.game.results.lookup s.game.current_round).isSome) := by
  refine ⟨?_, ?_, ?_⟩
  · intro g h
    simp [advance_or_finish, h]
  · intro g h
    simp [advance_or_finish, h]
  · intro s hreach hf
    obtain ⟨h1, h2, h3, h4⟩ := reachable_inv hreach
    exact h3 hf

/-- Demo room: two players, one round. -/
def gDemo0 : GameState := create_new_game "RM" ["A", "B"] 1 "t0"

/-- Demo room after distributing `A = [10]`, `B = [20]`. -/
def gDemo1 : GameState :=
  { gDemo0 with cards_per_round := [(1, [("A", [10]), ("B", [20])])]
                status := Status.playing }

/-- Demo room after verifying the correct submission `[A, B]`. -/
def gDemo2 : GameState :=
  { gDemo1 with results := [(1, ⟨[10, 20], [10, 20], true, "t1"⟩)] }

/-- Demo room after the continue action of its final round. -/
def gDemoF : GameState := { gDemo2 with status := Status.finished }

/-- Witness for C7: the concrete demo run reaches `finished` at the final
round with its result recorded. -/
theorem C7_witness :
    advance_or_finish gDemo2 = { gDemo2 with status := Status.finished } ∧
    gDemoF.current_round = gDemoF.max_rounds ∧
    (gDemoF.results.lookup gDemoF.current_round).isSome := by
  have h0 : Reachable ⟨gDemo0, none⟩ :=
    Reachable.init "RM" ["A", "B"] 1 "t0" (by decide)
  have h1 : Reachable ⟨gDemo1, none⟩ :=
    Reachable.step h0
      (Step.distribute ⟨gDemo0, none⟩ [10, 20] [("A", [10]), ("B", [20])]
        rfl (by decide) (by decide))
  have h2 : Reachable ⟨gDemo2, some ⟨1, [10, 20], [10, 20], 0, true⟩⟩ :=
    Reachable.step h1
      (Step.submit ⟨gDemo1, none⟩ ["A", "B"] "t1" gDemo2
        (some ⟨1, [10, 20], [10, 20], 0, true⟩) rfl (by decide))
  have h3 : Reachable ⟨gDemo2, some ⟨1, [10, 20], [10, 20], 1, true⟩⟩ :=
    Reachable.step h2
      (Step.reveal ⟨gDemo2, some ⟨1, [10, 20], [10, 20], 0, true⟩⟩
        ⟨1, [10, 20], [10, 20], 0, true⟩ rfl rfl (by decide))
  have h4 : Reachable ⟨gDemo2, some ⟨1, [10, 20], [10, 20], 2, true⟩⟩ :=
    Reachable.step h3
      (Step.reveal ⟨gDemo2, some ⟨1, [10, 20], [10, 20], 1, true⟩⟩
        ⟨1, [10, 20], [10, 20], 1, true⟩ rfl rfl (by decide))
  have hF : Reachable ⟨gDemoF, none⟩ :=
    Reachable.step h4
      (Step.advance ⟨gDemo2, some ⟨1, [10, 20], [10, 20], 2, true⟩⟩
        ⟨1, [10, 20], [10, 20], 2, true⟩ rfl rfl (by decide))
  refine ⟨C7_advance_and_finished.2.1 gDemo2 (by decide), ?_, ?_⟩
  · exact (C7_advance_and_finished.2.2 ⟨gDemoF, none⟩ hF rfl).1
  · exact (C7_advance_and_finished.2.2 ⟨gDemoF, none⟩ hF rfl).2

/-- The distribute handler either leaves the store unchanged or writes back
only under the given room code. -/
theorem distribute_action_shape (games : Store) (code : String) (sample : List Nat) :
    distribute_action games code sample = games ∨
    ∃ g2, distribute_action games code sample = upsert code g2 games := by
  unfold distribute_action
  split
  · exact Or.inl rfl
  · split
    · split
      · exact Or.inl rfl
      · split
        · exact Or.inl rfl
        · exact Or.inr ⟨_, rfl⟩
    · exact Or.inl rfl

/-- The submit handler either leaves the store unchanged or writes back only
under the given room code. -/
theorem submit_action_shape (games : Store) (code : String) (rv : Option RevealState)
    (sels : List String) (now : String) :
    (submit_action games code rv sels now).1 = games ∨
    ∃ g2, (submit_action games code rv sels now).1 = upsert code g2 games := by
  unfold submit_action
  split
  · exact Or.inl rfl
  · split
    · split
      · exact Or.inr ⟨_, rfl⟩
      · exact Or.inl rfl
    · exact Or.inl rfl

/-- The continue handler either leaves the store unchanged or writes back
only under the given room code. -/
theorem advance_action_shape (games : Store) (code : String) (rv : Option RevealState) :
    (advance_action games code rv).1 = games ∨
    ∃ g2, (advance_action games code rv).1 = upsert code g2 games := by
  unfold advance_action
  split
  · split
    · exact Or.inr ⟨_, rfl⟩
    · exact Or.inl rfl
  · exact Or.inl rfl

/-- The restart handler either leaves the store unchanged or writes back only
under the given room code. -/
theorem restart_action_shape (games : Store) (code : String) :
    restart_action games code = games ∨
    ∃ g2, restart_action games code = upsert code g2 games := by
  unfold restart_action
  split
  · exact Or.inl rfl
  · exact Or.inr ⟨_, rfl⟩

/-- C10: every state-mutating room operation — distributing cards, recording
a verification result, the continue action, restart — modifies at most the
store entry under its own room code: every other room code's entry is
unchanged. -/
theorem C10_frame (games : Store) (code other : String) (hne : other ≠ code) :
    (∀ sample, (distribute_action games code sample).lookup other =
      games.lookup other) ∧
    (∀ rv sels now, ((submit_action games code rv sels now).1).lookup other =
      games.lookup other) ∧
    (∀ rv, ((advance_action games code rv).1).lookup other = games.lookup other) ∧
    (restart_action games code).lookup other = games.lookup other := by
  refine ⟨?_, ?_, ?_, ?_⟩
  · intro sample
    rcases distribute_action_shape games code sample with h | ⟨g2, h⟩
    · rw [h]
    · rw [h, lookup_upsert_ne hne]
  · intro rv sels now
    rcases submit_action_shape games code rv sels now with h | ⟨g2, h⟩
    · rw [h]
    · rw [h, lookup_upsert_ne hne]
  · intro rv
    rcases advance_action_shape games code rv with h | ⟨g2, h⟩
    · rw [h]
    · rw [h, lookup_upsert_ne hne]
  · rcases restart_action_shape games code with h | ⟨g2, h⟩
    · rw [h]
    · rw [h, lookup_upsert_ne hne]

/-- Witness for C10 on a concrete two-room store. -/
theorem C10_witness :
    (distribute_action [("R1", gDemo0), ("R2", gPlaying)] "R1" [10, 20]).lookup "R2" =
      ([("R1", gDemo0), ("R2", gPlaying)] : Store).lookup "R2" ∧
    ((submit_action [("R1", gDemo0), ("R2", gPlaying)] "R1" none
        ["A", "B"] "t1").1).lookup "R2" =
      ([("R1", gDemo0), ("R2", gPlaying)] : Store).lookup "R2" ∧
    ((advance_action [("R1", gDemo0), ("R2", gPlaying)] "R1" none).1).lookup "R2" =
      ([("R1", gDemo0), ("R2", gPlaying)] : Store).lookup "R2" ∧
    (restart_action [("R1", gDemo0), ("R2", gPlaying)] "R1").lookup "R2" =
      ([("R1", gDemo0), ("R2", gPlaying)] : Store).lookup "R2" :=
  let h := C10_frame [("R1", gDemo0), ("R2", gPlaying)] "R1" "R2" (by decide)
  ⟨h.1 [10, 20], h.2.1 none ["A", "B"] "t1", h.2.2.1 none, h.2.2.2⟩

/-- A successful association-list lookup returns an actual entry. -/
theorem lookup_mem {κ α : Type} [BEq κ] [LawfulBEq κ] {k : κ} {v : α} :
    ∀ {m : List (κ × α)}, m.lookup k = some v → (k, v) ∈ m := by
  intro m
  induction m with
  | nil => intro h; cases h
  | cons hd tl ih =>
    obtain ⟨k₀, v₀⟩ := hd
    intro h
    by_cases hk : k = k₀
    · subst hk
      simp only [List.lookup, beq_self_eq_true] at h
      cases h
      exact List.mem_cons_self _ _
    · have hb : (k == k₀) = false := beq_false_of_ne hk
      simp only [List.lookup, hb] at h
      exact List.mem_cons_of_mem _ (ih h)

/-- Two same-length lists have equal predicate counts when the predicates
agree position by position. -/
theorem countP_eq_of_pointwise {α β : Type} (p : α → Bool) (q : β → Bool) :
    ∀ (xs : List α) (ys : List β), xs.length = ys.length →
      (∀ i (h1 : i < xs.length) (h2 : i < ys.length), p xs[i] = q ys[i]) →
      xs.countP p = ys.countP q := by
  intro xs
  induction xs with
  | nil =>
    intro ys hlen _
    cases ys with
    | nil => simp
    | cons b ys => cases hlen
  | cons a xs ih =>
    intro ys hlen hpt
    cases ys with
    | nil => cases hlen
    | cons b ys =>
      have h0 := hpt 0 (by simp) (by simp)
      simp only [List.getElem_cons_zero] at h0
      have hrest : xs.countP p = ys.countP q := by
        refine ih ys (by simpa using hlen) ?_
        intro i h1 h2
        have := hpt (i + 1) (by simpa using Nat.succ_lt_succ h1)
          (by simpa using Nat.succ_lt_succ h2)
        simpa using this
      rw [List.countP_cons, List.countP_cons, h0, hrest]

/-- When the flattened hands hold no duplicate card, a card value determines
the player entry holding it. -/
theorem owner_unique :
    ∀ (rc : List (String × List Nat)),
      ((rc.map Prod.snd).flatten).Nodup →
      ∀ (p q : String) (hp hq : List Nat) (v : Nat),
        (p, hp) ∈ rc → (q, hq) ∈ rc → v ∈ hp → v ∈ hq → p = q := by
  intro rc
  induction rc with
  | nil =>
    intro _ p q hp hq v hpm _ _ _
    cases hpm
  | cons hd tl ih =>
    obtain ⟨a, ha⟩ := hd
    intro hnd p q hp hq v hpm hqm hvp hvq
    simp only [List.map_cons, List.flatten_cons, List.nodup_append] at hnd
    obtain ⟨hnd1, hnd2, hdisj⟩ := hnd
    rcases List.mem_cons.mp hpm with heq1 | hpm2 <;>
      rcases List.mem_cons.mp hqm with heq2 | hqm2
    · rw [Prod.mk.injEq] at heq1 heq2
      rw [heq1.1, heq2.1]
    · exfalso
      have hv1 : v ∈ ha := by
        rw [Prod.mk.injEq] at heq1
        rw [← heq1.2]
        exact hvp
      have hv2 : v ∈ (tl.map Prod.snd).flatten :=
        List.mem_flatten.mpr ⟨hq, List.mem_map.mpr ⟨(q, hq), hqm2, rfl⟩, hvq⟩
      exact hdisj hv1 hv2
    · exfalso
      have hv1 : v ∈ ha := by
        rw [Prod.mk.injEq] at heq2
        rw [← heq2.2]
        exact hvq
      have hv2 : v ∈ (tl.map Prod.snd).flatten :=
        List.mem_flatten.mpr ⟨hp, List.mem_map.mpr ⟨(p, hp), hpm2, rfl⟩, hvp⟩
      exact hdisj hv1 hv2
    · exact ih hnd2 p q hp hq v hpm2 hqm2 hvp hvq

/-- In a strictly sorted list, the prefix before position `i` consists of
exactly the members smaller than the value at `i`. -/
theorem mem_take_iff_of_sorted {l : List Nat} (hs : l.Sorted (· < ·)) {i v : Nat}
    (hv : l[i]? = some v) (w : Nat) :
    w ∈ l.take i ↔ w ∈ l ∧ w < v := by
  obtain ⟨hilt, hiv⟩ := List.getElem?_eq_some_iff.mp hv
  constructor
  · intro hw
    obtain ⟨j, hj, hjw⟩ := List.mem_iff_getElem.mp hw
    have hji : j < i := by
      have := hj
      rw [List.length_take] at this
      omega
    have hjl : j < l.length := by omega
    have hlt : l[j] < l[i] :=
      hs.get_strictMono (show (⟨j, hjl⟩ : Fin l.length) < ⟨i, hilt⟩ from hji)
    rw [List.getElem_take] at hjw
    constructor
    · rw [← hjw]
      exact List.getElem_mem hjl
    · rw [← hjw, ← hiv]
      exact hlt
  · rintro ⟨hw, hwv⟩
    obtain ⟨j, hj, hjw⟩ := List.mem_iff_getElem.mp hw
    have hji : j < i := by
      by_contra hc
      push_neg at hc
      have hle : l[i] ≤ l[j] := by
        rcases Nat.eq_or_lt_of_le hc with heq | hlt2
        · subst heq
          exact le_refl _
        · exact le_of_lt
            (hs.get_strictMono (show (⟨i, hilt⟩ : Fin l.length) < ⟨j, hj⟩ from hlt2))
      rw [hiv, hjw] at hle
      omega
    refine List.mem_iff_getElem.mpr ⟨j, ?_, ?_⟩
    · rw [List.length_take]
      omega
    · rw [List.getElem_take]
      exact hjw

/-- In a strictly sorted list, a member sits exactly at the index counting
the members smaller than it. -/
theorem strict_sorted_get_count {l : List Nat} (hs : l.Sorted (· < ·)) {v : Nat}
    (hv : v ∈ l) :
    l[(l.filter (fun w => decide (w < v))).length]? = some v := by
  induction l with
  | nil => cases hv
  | cons a t ih =>
    rw [List.sorted_cons] at hs
    obtain ⟨hall, hst⟩ := hs
    rcases List.mem_cons.mp hv with rfl | hvt
    · have hf : (v :: t).filter (fun w => decide (w < v)) = [] := by
        rw [List.filter_eq_nil_iff]
        intro b hb
        rcases List.mem_cons.mp hb with rfl | hbt
        · simp
        · have := hall b hbt
          simp
          omega
      rw [hf]
      exact List.getElem?_cons_zero
    · have hav : a < v := hall v hvt
      have hf : (a :: t).filter (fun w => decide (w < v)) =
          a :: t.filter (fun w => decide (w < v)) := by
        rw [List.filter_cons]
        simp [hav]
      rw [hf]
      simp only [List.length_cons, List.getElem?_cons_succ]
      exact ih hst hvt

/-- Along a walk of the correct order that names, for each value, a player
whose hand contains it, the spec's per-position value is exactly the
correct-order value: the number of the named player's earlier selections
coincides with the number of that player's cards smaller than the current
value. -/
theorem spec_value_at_correct
    (rc : List (String × List Nat)) (sels : List String)
    (hjoin : ((rc.map Prod.snd).flatten).Nodup)
    (hlen : sels.length = (correct_order_of rc).length)
    (hown : ∀ i, i < sels.length →
      ∃ p hand v, sels[i]? = some p ∧ rc.lookup p = some hand ∧
        (correct_order_of rc)[i]? = some v ∧ v ∈ hand)
    (i : Nat) (hi : i < sels.length) :
    specResolvedValue rc sels i = (correct_order_of rc)[i]? := by
  have hperm : (correct_order_of rc).Perm ((rc.map Prod.snd).flatten) :=
    List.perm_insertionSort _ _
  have hcnodup : (correct_order_of rc).Nodup := hperm.nodup_iff.mpr hjoin
  have hcsorted : (correct_order_of rc).Sorted (· < ·) :=
    (List.sorted_insertionSort (· ≤ ·) _).lt_of_le hcnodup
  obtain ⟨p, hand, v, hgp, hlk, hgv, hvh⟩ := hown i hi
  have hmem : (p, hand) ∈ rc := lookup_mem hlk
  have hhand_mem : hand ∈ rc.map Prod.snd := List.mem_map.mpr ⟨(p, hand), hmem, rfl⟩
  have hhand_nodup : hand.Nodup := (List.nodup_flatten.mp hjoin).1 hand hhand_mem
  have hhand_sub : ∀ w ∈ hand, w ∈ correct_order_of rc := by
    intro w hw
    exact hperm.mem_iff.mpr (List.mem_flatten.mpr ⟨hand, hhand_mem, hw⟩)
  have hcount1 : (sels.take i).count p =
      ((correct_order_of rc).take i).countP (fun w => decide (w ∈ hand)) := by
    rw [List.count_eq_countP]
    refine countP_eq_of_pointwise _ _ _ _ ?_ ?_
    · rw [List.length_take, List.length_take]
      omega
    · intro j h1 h2
      have hji : j < i := by
        rw [List.length_take] at h1
        omega
      have hjlen : j < sels.length := by omega
      obtain ⟨pj, handj, vj, hgpj, hlkj, hgvj, hvhj⟩ := hown j hjlen
      obtain ⟨hj1, hj2⟩ := List.getElem?_eq_some_iff.mp hgpj
      obtain ⟨hj3, hj4⟩ := List.getElem?_eq_some_iff.mp hgvj
      rw [List.getElem_take, List.getElem_take, hj2, hj4]
      by_cases hpp : pj = p
      · subst hpp
        have hhe : handj = hand := by
          rw [hlk] at hlkj
          exact (Option.some_inj.mp hlkj).symm
        subst hhe
        have hbp : (pj == pj) = true := beq_self_eq_true pj
        rw [hbp]
        simp [hvhj]
      · have hb : (pj == p) = false := beq_false_of_ne hpp
        rw [hb]
        by_cases hvin : vj ∈ hand
        · exfalso
          have hmemj : (pj, handj) ∈ rc := lookup_mem hlkj
          exact hpp (owner_unique rc hjoin pj p handj hand vj hmemj hmem hvhj hvin)
        · simp [hvin]
  have hcount2 : ((correct_order_of rc).take i).countP (fun w => decide (w ∈ hand)) =
      (hand.filter (fun w => decide (w < v))).length := by
    rw [List.countP_eq_length_filter]
    have hA : (((correct_order_of rc).take i).filter
        (fun w => decide (w ∈ hand))).Nodup :=
      List.Nodup.filter _ ((List.take_sublist _ _).nodup hcnodup)
    have hB : (hand.filter (fun w => decide (w < v))).Nodup :=
      List.Nodup.filter _ hhand_nodup
    have hiff : ∀ w,
        w ∈ ((correct_order_of rc).take i).filter (fun w => decide (w ∈ hand)) ↔
        w ∈ hand.filter (fun w => decide (w < v)) := by
      intro w
      rw [List.mem_filter, List.mem_filter]
      rw [show (w ∈ (correct_order_of rc).take i) ↔
          (w ∈ correct_order_of rc ∧ w < v) from
        mem_take_iff_of_sorted hcsorted hgv w]
      constructor
      · rintro ⟨⟨hwc, hwv⟩, hwh⟩
        exact ⟨by simpa using hwh, by simpa using hwv⟩
      · rintro ⟨hwh, hwv⟩
        have hwc : w ∈ correct_order_of rc := hhand_sub w hwh
        exact ⟨⟨hwc, by simpa using hwv⟩, by simpa using hwh⟩
    exact ((List.perm_ext_iff_of_nodup hA hB).mpr hiff).length_eq
  simp only [specResolvedValue, hgp, hlk, Option.some_bind]
  rw [hgv]
  have hshperm : (hand.insertionSort (· ≤ ·)).Perm hand := List.perm_insertionSort _ _
  have hshnodup : (hand.insertionSort (· ≤ ·)).Nodup := hshperm.nodup_iff.mpr hhand_nodup
  have hshsorted : (hand.insertionSort (· ≤ ·)).Sorted (· < ·) :=
    (List.sorted_insertionSort (· ≤ ·) hand).lt_of_le hshnodup
  have hvsh : v ∈ hand.insertionSort (· ≤ ·) := (List.mem_insertionSort _).mpr hvh
  have hfilter_eq : ((hand.insertionSort (· ≤ ·)).filter
      (fun w => decide (w < v))).length =
      (hand.filter (fun w => decide (w < v))).length := by
    rw [← List.countP_eq_length_filter, ← List.countP_eq_length_filter]
    exact hshperm.countP_eq _
  have hfinal := strict_sorted_get_count hshsorted hvsh
  rw [hfilter_eq] at hfinal
  rw [hcount1, hcount2]
  exact hfinal

/-- C9: if the selections walk `correctOrder` and name, for each value, a
player whose hand contains it, the resolver reproduces exactly
`correctOrder`, and the submitted verification records that order with
`is_correct = true`. -/
theorem C9_roundtrip (rc : List (String × List Nat)) (sels : List String)
    (hjoin : ((rc.map Prod.snd).flatten).Nodup)
    (hlen : sels.length = (correct_order_of rc).length)
    (hown : ∀ i, i < sels.length →
      ∃ p hand v, sels[i]? = some p ∧ rc.lookup p = some hand ∧
        (correct_order_of rc)[i]? = some v ∧ v ∈ hand) :
    resolve_order rc sels = Except.ok (correct_order_of rc) ∧
    (∀ (g : GameState) (now : String),
      g.cards_per_round.lookup g.current_round = some rc →
      g.players.length * g.current_round = sels.length →
      submit_order g none sels now =
        SubmitResult.saved
          { g with
              results := upsert g.current_round
                ⟨correct_order_of rc, correct_order_of rc, true, now⟩ g.results }
          (some (init_reveal g.current_round (correct_order_of rc)
            (correct_order_of rc) true))) := by
  have hclen : (correct_order_of rc).length = sels.length := hlen.symm
  have hres : resolve_order rc sels = Except.ok (correct_order_of rc) := by
    have hsome : ∀ j, 0 ≤ j → j < sels.length →
        (specResolvedValue rc sels j).isSome := by
      intro j _ hj
      rw [spec_value_at_correct rc sels hjoin hlen hown j hj]
      rw [List.getElem?_eq_getElem (by omega)]
      rfl
    obtain ⟨out, hout, holen, hom⟩ := resolve_go_spec rc sels sels 0 rfl hsome
    have hequal : out = correct_order_of rc := by
      refine List.ext_getElem? ?_
      intro n
      by_cases hn : n < sels.length
      · rw [show out[n]? = specResolvedValue rc sels (0 + n) from hom n]
        rw [Nat.zero_add]
        exact spec_value_at_correct rc sels hjoin hlen hown n hn
      · rw [List.getElem?_eq_none (by omega), List.getElem?_eq_none (by omega)]
    simp only [resolve_order]
    rw [hout, hequal]
  refine ⟨hres, ?_⟩
  intro g now hrc htot
  simp only [submit_order, hrc, hres]
  rw [if_neg (by omega)]
  simp

/-- Witness for C9: the concrete round-2 walk `[A, B, B, A]` over hands
`A = [10, 50]`, `B = [20, 30]` reproduces `[10, 20, 30, 50]` and records a
correct round. -/
theorem C9_witness :
    resolve_order [("A", [10, 50]), ("B", [20, 30])] ["A", "B", "B", "A"] =
      Except.ok (correct_order_of [("A", [10, 50]), ("B", [20, 30])]) ∧
    submit_order gPlaying none ["A", "B", "B", "A"] "t9" =
      SubmitResult.saved
        { gPlaying with
            results := upsert gPlaying.current_round
              ⟨correct_order_of [("A", [10, 50]), ("B", [20, 30])],
                correct_order_of [("A", [10, 50]), ("B", [20, 30])], true, "t9"⟩
              gPlaying.results }
        (some (init_reveal gPlaying.current_round
          (correct_order_of [("A", [10, 50]), ("B", [20, 30])])
          (correct_order_of [("A", [10, 50]), ("B", [20, 30])]) true)) := by
  have h := C9_roundtrip [("A", [10, 50]), ("B", [20, 30])] ["A", "B", "B", "A"]
    (by decide) (by decide) ?_
  · exact ⟨h.1, h.2 gPlaying "t9" rfl rfl⟩
  · intro i hi
    simp only [List.length_cons, List.length_nil] at hi
    interval_cases i
    · exact ⟨"A", [10, 50], 10, rfl, rfl, rfl, by decide⟩
    · exact ⟨"B", [20, 30], 20, rfl, rfl, rfl, by decide⟩
    · exact ⟨"B", [20, 30], 30, rfl, rfl, rfl, by decide⟩
    · exact ⟨"A", [10, 50], 50, rfl, rfl, rfl, by decide⟩

end Ito
